import Mathlib

/-!
# Verification of the parallel segmented prime sieve

A shallow embedding, in Lean 4, of the Go program in this repository
(`main.go`, segmented-sieve version, together with the sequential reference
sieve and trial-division primality test of the earlier iteration kept in the
repository).

Modelling conventions:
* Go `int` values that are provably non-negative throughout the program are
  modelled as `Nat`.  The program bounds its inputs by `MaxNumberForSieveGlobal
  = 2*10^8`, far below `int` overflow; the `int64` widenings the source uses
  for the `p*p` comparisons are no-ops at this range, so no modular arithmetic
  is needed.
* `int(math.Sqrt(float64(n)))` is modelled as `intSqrt n`, a structural
  (kernel-evaluable) definition of the integer square root, proved equal to
  `Nat.sqrt` in `intSqrt_eq_sqrt`.  For every `n` below `2^52` the `float64`
  computation is exact enough that truncation gives the integer square root
  (rounding of `math.Sqrt` can only cross an integer boundary when `n` is a
  perfect square, where the result is exact).
* Go `for init; cond; post` loops whose body only reads/updates an array are
  rendered as folds over the explicit list of loop-counter values
  (`loopRange start limit step`, the values `start, start+step, ...` while
  `≤ limit`), which keeps every definition structural and executable.
* Byte slices are modelled as `List Nat`; the program only ever ORs a bit
  below 8 into a byte, so values stay below 256 and no truncation arises.
* Goroutine scheduling cannot be expressed in a sequential embedding.  The
  worker pool's only observable effect is the multiset of segment results,
  which the program concatenates and sorts; the embedding processes the
  segments in dispatch order.  The worker count parameter is retained in the
  signature of `findPrimesWithSegmentedSieve` to mirror the Go signature; it
  only influences scheduling, never data, so the model ignores it.  (For
  `numWorkers ≤ 0` and `maxNum ≥ 2` the Go program deadlocks; the claims
  below therefore only constrain the model for positive worker counts, and
  for `maxNum < 2`, where the source returns before touching any channel.)
* `sort.Ints` is modelled as `List.insertionSort (· ≤ ·)`, a sorting
  algorithm with the same contract.
* The segment width is the Go constant `SegmentSizeInNumbers = 524288`; the
  spec's entry point takes the width as a parameter, so the embedding
  generalises the constant into an argument (the source is the instantiation
  at `SegmentSizeInNumbers`).
-/

/-- `SegmentSizeInNumbers` constant from `main.go`. -/
def SegmentSizeInNumbers : Nat := 524288

/-- Number of iterations of a Go loop `for v := start; v <= limit; v += step`. -/
def loopCount (start limit step : Nat) : Nat :=
  if start ≤ limit then (limit - start) / step + 1 else 0

/-- The successive values of the loop counter of
`for v := start; v <= limit; v += step`. -/
def loopRange (start limit step : Nat) : List Nat :=
  List.range' start (loopCount start limit step) step

/-- Integer square root, modelling `int(math.Sqrt(float64(n)))` (see the
module docstring): the number of `k` with `0 < k ≤ n` and `k*k ≤ n`, which is
`Nat.sqrt n` (proved in `intSqrt_eq_sqrt`).  Defined structurally so that the
kernel can evaluate it, unlike `Nat.sqrt`. -/
def intSqrt (n : Nat) : Nat :=
  (List.range n).countP (fun k => decide ((k + 1) * (k + 1) ≤ n))

/-- `markBitSegment` from `main.go`: sets the bit for `indexInSegment` in the
segment bitset (functional rendering of the in-place update).  The source
performs no bounds check; `List.set` out of range is a no-op, and the safety
claim shows all reachable accesses are in range. -/
def markBitSegment (indexInSegment : Nat) (segmentBitset : List Nat) : List Nat :=
  let byteIndex := indexInSegment / 8
  let bitOffset := indexInSegment % 8
  segmentBitset.set byteIndex (segmentBitset.getD byteIndex 0 ||| (1 <<< bitOffset))

/-- `isBitMarkedSegment` from `main.go`: tests the bit for `indexInSegment`. -/
def isBitMarkedSegment (indexInSegment : Nat) (segmentBitset : List Nat) : Bool :=
  let byteIndex := indexInSegment / 8
  let bitOffset := indexInSegment % 8
  (segmentBitset.getD byteIndex 0 &&& (1 <<< bitOffset)) != 0

/-- Marks each position of `ms` `true` in a boolean array (the inner marking
loops of the sequential sieves, rendered as a fold over the multiples). -/
def markTrue (arr : List Bool) (ms : List Nat) : List Bool :=
  ms.foldl (fun a m => a.set m true) arr

/-- `isPrime` from the repository's trial-division iteration: the trusted
independent primality predicate.  The loop `for i := 3; i <= sqrtN; i += 2`
is the fold over `loopRange 3 (intSqrt n) 2`. -/
def isPrime (n : Nat) : Bool :=
  if n < 2 then false
  else if n == 2 then true
  else if n % 2 == 0 then false
  else (loopRange 3 (intSqrt n) 2).all (fun i => n % i != 0)

/-- One iteration of the outer marking loop of
`sieveOfEratosthenesSequential`: skip `p` if already marked composite,
otherwise mark `p*p, p*p+p, …` up to `maxNum`. -/
def seqSieveStep (maxNum : Nat) (arr : List Bool) (p : Nat) : List Bool :=
  if arr.getD p false then arr else markTrue arr (loopRange (p * p) maxNum p)

/-- The `isNotPrime` array of `sieveOfEratosthenesSequential` after the
marking phase: indices 0 and 1 pre-marked, then the outer loop
`for p := 2; p <= sqrtMax; p++`. -/
def seqSieveArray (maxNum : Nat) : List Bool :=
  (loopRange 2 (intSqrt maxNum) 1).foldl (seqSieveStep maxNum)
    (((List.replicate (maxNum + 1) false).set 0 true).set 1 true)

/-- `sieveOfEratosthenesSequential` from the repository's first iteration:
plain sequential sieve over `[0, maxNum]`, the reference the segmented result
is compared against.  `isNotPrime` starts with indices 0 and 1 marked; the
outer loop runs `p` from 2 to `sqrtMax`, the inner loop marks `p*p, p*p+p, …`. -/
def sieveOfEratosthenesSequential (maxNum : Nat) : List Nat :=
  if maxNum < 2 then []
  else (loopRange 2 maxNum 1).filter (fun i => ! (seqSieveArray maxNum).getD i false)

/-- One iteration of the outer marking loop of
`sieveOfEratosthenesSequentialBase`: skip `p` if already marked composite,
otherwise mark the odd multiples `p*p, p*p+2p, …` up to the limit. -/
def baseSieveStep (maxNumInternal : Nat) (arr : List Bool) (p : Nat) : List Bool :=
  if arr.getD p false then arr else markTrue arr (loopRange (p * p) maxNumInternal (2 * p))

/-- The `isComposite` array of `sieveOfEratosthenesSequentialBase` after the
marking phase (outer loop `for p := 3; p*p <= L; p += 2`). -/
def baseSieveArray (maxNumInternal : Nat) : List Bool :=
  (loopRange 3 (intSqrt maxNumInternal) 2).foldl (baseSieveStep maxNumInternal)
    (List.replicate (maxNumInternal + 1) false)

/-- `sieveOfEratosthenesSequentialBase` from `main.go`: odd-only sequential
sieve for the base primes.  The outer loop `for p := 3; p*p <= L; p += 2`
iterates over exactly the odd `p` with `p ≤ Nat.sqrt L`
(`p*p ≤ L ↔ p ≤ Nat.sqrt L`, rendered through `intSqrt`), the inner loop
marks `p*p, p*p+2p, …`; collection emits 2 first and then the unmarked odd
numbers. -/
def sieveOfEratosthenesSequentialBase (maxNumInternal : Nat) : List Nat :=
  if maxNumInternal < 2 then []
  else
    (if 2 ≤ maxNumInternal then [2] else []) ++
      (loopRange 3 maxNumInternal 2).filter
        (fun i => ! (baseSieveArray maxNumInternal).getD i false)

/-- The multiples of a base prime `p` that the segment worker marks inside
`[low, high]` (`main.go` lines 114–126): the loop starts at
`max(ceil(low/p)*p, p*p)` and steps by `p` while `≤ high`. -/
def segMultiples (p low high : Nat) : List Nat :=
  let startMultipleInP := ((low + p - 1) / p) * p
  let actualStartMarking := if startMultipleInP < p * p then p * p else startMultipleInP
  loopRange actualStartMarking high p

/-- Processing of one base prime inside a segment: mark each in-segment
multiple in the bitset (the guard `multiple >= task.low` is in the source). -/
def segMarkPrime (p low high : Nat) (bs : List Nat) : List Nat :=
  (segMultiples p low high).foldl
    (fun b multiple => if low ≤ multiple then markBitSegment (multiple - low) b else b) bs

/-- The base-prime loop of `segmentedSieveWorker` (`main.go` lines 105–132):
processes base primes in order, breaking at the first `p` with `p*p > high`. -/
def segPrimesLoop (low high : Nat) (basePrimes : List Nat) (bs : List Nat) : List Nat :=
  match basePrimes with
  | [] => bs
  | p :: rest =>
      if high < p * p then bs
      else segPrimesLoop low high rest (segMarkPrime p low high bs)

/-- The body of `segmentedSieveWorker` for one `SegmentTask` `(low, high)`:
allocate the bitset, mark composites using the base primes, and collect the
unmarked numbers `≥ 2` of the segment in ascending order. -/
def segmentSieveTask (low high : Nat) (basePrimes : List Nat) : List Nat :=
  let segmentNumCount := high - low + 1
  let segmentBitsetLen := (segmentNumCount + 7) / 8
  let segmentBitset := segPrimesLoop low high basePrimes (List.replicate segmentBitsetLen 0)
  ((List.range segmentNumCount).filter
    (fun i => !(decide (low + i < 2)) && !(isBitMarkedSegment i segmentBitset))).map
    (fun i => low + i)

/-- The dispatch loop of `findPrimesWithSegmentedSieve` (`main.go`
lines 188–203), generalised over the segment width `W`: segment lows are
`0, W, 2W, …` while `≤ maxNum`, each high is `low + W - 1` capped at `maxNum`. -/
def planSegments (maxNum W : Nat) : List (Nat × Nat) :=
  (loopRange 0 maxNum W).map
    (fun currentLow =>
      (currentLow, if maxNum < currentLow + W - 1 then maxNum else currentLow + W - 1))

/-- The per-segment results in dispatch order. -/
def segResultsList (maxNum W : Nat) (basePrimes : List Nat) : List (List Nat) :=
  (planSegments maxNum W).map (fun s => segmentSieveTask s.1 s.2 basePrimes)

/-- Final assembly (`main.go` lines 248–256): append all segment result lists
in arrival order, then sort (`sort.Ints`, modelled by insertion sort). -/
def assembleAndSort (collected : List (List Nat)) : List Nat :=
  List.insertionSort (· ≤ ·) (collected.foldl (· ++ ·) [])

/-- `findPrimesWithSegmentedSieve` from `main.go`, with the segment width
generalised from the constant `SegmentSizeInNumbers` into the parameter
`segmentSize`.  `numWorkers` only influences goroutine scheduling (see the
module docstring), so the sequential model does not consume it. -/
def findPrimesWithSegmentedSieve (maxNum numWorkers segmentSize : Nat) : List Nat :=
  if maxNum < 2 then []
  else
    let sqrtMaxNum := intSqrt maxNum
    let basePrimes := sieveOfEratosthenesSequentialBase sqrtMaxNum
    assembleAndSort (segResultsList maxNum segmentSize basePrimes)

/-- The worker-count adjustment in `main` (`main.go` lines 280–283): a
non-positive worker count is clamped to 1 by the driver. -/
def mainAdjustWorkers (numWorkers : Int) : Int :=
  if numWorkers ≤ 0 then 1 else numWorkers

/-- The indices a segment task passes to `markBitSegment` for one base prime
(ghost mirror of `segMarkPrime`, recording `multiple - low` for each marked
multiple). -/
def segMarkIndices (p low high : Nat) : List Nat :=
  ((segMultiples p low high).filter (fun m => decide (low ≤ m))).map (fun m => m - low)

/-- All indices the worker passes to `markBitSegment` while processing a
task (ghost mirror of `segPrimesLoop`, including the early break). -/
def workerMarkIndices (low high : Nat) : List Nat → List Nat
  | [] => []
  | p :: rest =>
      if high < p * p then []
      else segMarkIndices p low high ++ workerMarkIndices low high rest

/-- All indices the collection loop passes to `isBitMarkedSegment`
(`main.go` lines 136–144): every `i < segmentNumCount` whose number
`low + i` is not skipped by the `currentNum < 2` guard. -/
def workerProbeIndices (low high : Nat) : List Nat :=
  (List.range (high - low + 1)).filter (fun i => ! decide (low + i < 2))

/-- The ascending list of all primes `≤ n` — the specification-side value
(`filter` of the trusted primality predicate over `[0, n]`). -/
def primesUpTo (n : Nat) : List Nat :=
  (List.range (n + 1)).filter isPrime

/-- Modelled from the spec: the ascending list of primes in
`[max(low, 2), high]`, the contracted Segment Result of §4.3. -/
def primesInRange (low high : Nat) : List Nat :=
  (List.range (high + 1)).filter (fun n => decide (max low 2 ≤ n) && isPrime n)

/-! ## Infrastructure lemmas -/

instance : IsAntisymm Nat (· < ·) :=
  ⟨fun _ _ h1 h2 => absurd h2 (Nat.lt_asymm h1)⟩

/-- Two strictly sorted lists of naturals with the same members are equal. -/
theorem eq_of_sorted_of_mem_iff {l1 l2 : List Nat} (h1 : l1.Sorted (· < ·))
    (h2 : l2.Sorted (· < ·)) (hm : ∀ n, n ∈ l1 ↔ n ∈ l2) : l1 = l2 :=
  List.eq_of_perm_of_sorted ((List.perm_ext_iff_of_nodup h1.nodup h2.nodup).mpr hm) h1 h2

theorem intSqrt_eq_sqrt (n : Nat) : intSqrt n = Nat.sqrt n := by
  have hle := Nat.sqrt_le_self n
  have hsplit : List.range n =
      List.range' 0 (Nat.sqrt n) ++ List.range' (Nat.sqrt n) (n - Nat.sqrt n) := by
    have h := List.range'_append_1 0 (Nat.sqrt n) (n - Nat.sqrt n)
    rw [Nat.zero_add, Nat.sub_add_cancel hle] at h
    rw [List.range_eq_range', ← h]
  rw [intSqrt, hsplit, List.countP_append]
  have h1 : (List.range' 0 (Nat.sqrt n)).countP (fun k => decide ((k + 1) * (k + 1) ≤ n)) =
      Nat.sqrt n := by
    have hall : ∀ a ∈ List.range' 0 (Nat.sqrt n),
        (fun k => decide ((k + 1) * (k + 1) ≤ n)) a = true := by
      intro a ha
      rw [List.mem_range'_1] at ha
      have h3 : a + 1 ≤ Nat.sqrt n := by omega
      simpa using Nat.le_sqrt.mp h3
    rw [List.countP_eq_length.mpr hall, List.length_range']
  have h2 : (List.range' (Nat.sqrt n) (n - Nat.sqrt n)).countP
      (fun k => decide ((k + 1) * (k + 1) ≤ n)) = 0 := by
    rw [List.countP_eq_zero]
    intro a ha
    rw [List.mem_range'_1] at ha
    simp only [decide_eq_true_eq]
    intro hc
    have := Nat.le_sqrt.mpr hc
    omega
  omega

/-- Any member of a loop range is between `start` and `limit`
(this holds even for `step = 0`). -/
theorem mem_loopRange_bounds {start limit step m : Nat}
    (h : m ∈ loopRange start limit step) : start ≤ m ∧ m ≤ limit := by
  rw [loopRange, List.mem_range'] at h
  obtain ⟨i, hi, rfl⟩ := h
  rw [loopCount] at hi
  by_cases hsl : start ≤ limit
  · rw [if_pos hsl] at hi
    rcases Nat.eq_zero_or_pos step with hstep | hstep
    · subst hstep; omega
    · have hi' : i ≤ (limit - start) / step := by omega
      have := Nat.mul_le_mul_left step hi'
      have := Nat.mul_div_le (limit - start) step
      constructor
      · omega
      · have : step * i ≤ limit - start := by omega
        omega
  · rw [if_neg hsl] at hi; omega

/-- Membership in a loop range with a positive step: exactly the values
`start + step * i` that are `≤ limit`. -/
theorem mem_loopRange_iff {start limit step m : Nat} (hstep : 0 < step) :
    m ∈ loopRange start limit step ↔ (∃ i, m = start + step * i) ∧ m ≤ limit := by
  constructor
  · intro h
    have hb := mem_loopRange_bounds h
    rw [loopRange, List.mem_range'] at h
    obtain ⟨i, _, rfl⟩ := h
    exact ⟨⟨i, rfl⟩, hb.2⟩
  · rintro ⟨⟨i, rfl⟩, hle⟩
    rw [loopRange, List.mem_range']
    refine ⟨i, ?_, rfl⟩
    rw [loopCount, if_pos (by omega)]
    have hcomm : step * i = i * step := Nat.mul_comm step i
    have h1 : i * step ≤ limit - start := by omega
    have h2 := (Nat.le_div_iff_mul_le hstep).mpr h1
    omega

/-- A loop range is strictly sorted when the step is positive. -/
theorem loopRange_sorted {start limit step : Nat} (hstep : 0 < step) :
    (loopRange start limit step).Sorted (· < ·) :=
  List.pairwise_lt_range' start _ step hstep

theorem markTrue_nil (arr : List Bool) : markTrue arr [] = arr := rfl

theorem markTrue_cons (arr : List Bool) (m : Nat) (ms : List Nat) :
    markTrue arr (m :: ms) = markTrue (arr.set m true) ms := rfl

theorem markTrue_length (arr : List Bool) (ms : List Nat) :
    (markTrue arr ms).length = arr.length := by
  induction ms generalizing arr with
  | nil => rfl
  | cons m ms ih => rw [markTrue_cons, ih, List.length_set]

theorem getD_set_self {α} {l : List α} {i : Nat} {a d : α} (h : i < l.length) :
    (l.set i a).getD i d = a := by
  simp [List.getD_eq_getElem?_getD, List.getElem?_set_self h]

theorem getD_set_ne {α} {l : List α} {i j : Nat} {a d : α} (h : i ≠ j) :
    (l.set i a).getD j d = l.getD j d := by
  simp [List.getD_eq_getElem?_getD, List.getElem?_set_ne h]

/-- After marking every position of `ms`, position `i` (in range) is marked
iff it was marked before or occurs in `ms`. -/
theorem getD_markTrue {arr : List Bool} {ms : List Nat} {i : Nat} (hi : i < arr.length) :
    (markTrue arr ms).getD i false = (arr.getD i false || decide (i ∈ ms)) := by
  induction ms generalizing arr with
  | nil => simp [markTrue_nil]
  | cons m ms ih =>
    rw [markTrue_cons, ih (by rw [List.length_set]; exact hi)]
    by_cases him : i = m
    · subst him
      rw [getD_set_self hi]
      simp
    · rw [getD_set_ne (Ne.symm him)]
      simp [him]

/-- An out-of-range `getD` yields the default. -/
theorem getD_eq_default_of_le {α} {l : List α} {i : Nat} {d : α} (h : l.length ≤ i) :
    l.getD i d = d := by
  simp [List.getD_eq_getElem?_getD, List.getElem?_eq_none h]

/-- Marking only ever turns positions on, never off. -/
theorem getD_markTrue_mono {arr : List Bool} {ms : List Nat} {i : Nat}
    (h : arr.getD i false = true) : (markTrue arr ms).getD i false = true := by
  have hi : i < arr.length := by
    by_contra hc
    rw [getD_eq_default_of_le (by omega)] at h
    exact Bool.false_ne_true h
  rw [getD_markTrue hi, h, Bool.true_or]

/-! ## Correctness of the trial-division primality test -/

/-- The repository's `isPrime` agrees with `Nat.Prime`. -/
theorem isPrime_eq_true_iff (n : Nat) : isPrime n = true ↔ Nat.Prime n := by
  unfold isPrime
  by_cases h2 : n < 2
  · simp only [if_pos h2]
    constructor
    · intro h; exact absurd h (by simp)
    · intro hp; exact absurd hp.two_le (by omega)
  · rw [if_neg h2]
    by_cases he : n = 2
    · subst he; simpa using Nat.prime_two
    · rw [if_neg (by simpa using he)]
      by_cases hev : n % 2 = 0
      · rw [if_pos (by simpa using hev)]
        simp only [Bool.false_eq_true, false_iff]
        intro hp
        have := (Nat.Prime.even_iff hp).mp (Nat.even_iff.mpr hev)
        exact he this
      · rw [if_neg (by simpa using hev)]
        rw [intSqrt_eq_sqrt, List.all_eq_true]
        constructor
        · intro hall
          by_contra hnp
          have hn1 : n ≠ 1 := by omega
          set q := Nat.minFac n with hq
          have hqp : Nat.Prime q := Nat.minFac_prime hn1
          have hqd : q ∣ n := Nat.minFac_dvd n
          have hqsq : q * q ≤ n := by
            have := Nat.minFac_sq_le_self (by omega : 0 < n) hnp
            rwa [Nat.pow_two] at this
          have hq2 : q ≠ 2 := by
            intro hc
            rw [hc] at hqd
            omega
          have hodd : q % 2 = 1 := by
            rcases Nat.Prime.eq_two_or_odd hqp with h | h
            · exact absurd h hq2
            · exact h
          have hq3 : 3 ≤ q := by
            have := hqp.two_le
            omega
          have hmem : q ∈ loopRange 3 (Nat.sqrt n) 2 := by
            rw [mem_loopRange_iff (by omega)]
            exact ⟨⟨(q - 3) / 2, by omega⟩, Nat.le_sqrt.mpr hqsq⟩
          have := hall q hmem
          simp only [ne_eq, bne_iff_ne] at this
          exact this (Nat.mod_eq_zero_of_dvd hqd)
        · intro hp i hi
          have hb := mem_loopRange_bounds hi
          simp only [ne_eq, bne_iff_ne]
          intro hmod
          have hdvd : i ∣ n := Nat.dvd_of_mod_eq_zero hmod
          have hlt : i < n := by
            have := Nat.sqrt_lt_self (by omega : 1 < n)
            omega
          rcases (Nat.Prime.eq_one_or_self_of_dvd hp i hdvd) with h | h <;> omega

/-! ## Generic lemmas about the sieve marking folds -/

theorem lt_length_of_getD_true {l : List Bool} {i : Nat} (h : l.getD i false = true) :
    i < l.length := by
  by_contra hc
  rw [getD_eq_default_of_le (by omega)] at h
  exact Bool.false_ne_true h

theorem foldl_sieve_length {step : List Bool → Nat → List Bool} {P : List Nat}
    (hlen : ∀ arr, ∀ p ∈ P, (step arr p).length = arr.length) (arr : List Bool) :
    (P.foldl step arr).length = arr.length := by
  induction P generalizing arr with
  | nil => rfl
  | cons p P ih =>
    rw [List.foldl_cons, ih (fun a q hq => hlen a q (List.mem_cons_of_mem p hq)),
      hlen arr p (List.mem_cons_self p P)]

theorem foldl_sieve_mono {step : List Bool → Nat → List Bool} {P : List Nat}
    (hmono : ∀ arr, ∀ p ∈ P, ∀ i, arr.getD i false = true → (step arr p).getD i false = true)
    (arr : List Bool) (i : Nat) (h : arr.getD i false = true) :
    (P.foldl step arr).getD i false = true := by
  induction P generalizing arr with
  | nil => exact h
  | cons p P ih =>
    rw [List.foldl_cons]
    exact ih (fun a q hq => hmono a q (List.mem_cons_of_mem p hq))
      _ (hmono arr p (List.mem_cons_self p P) i h)

theorem foldl_sieve_sound {step : List Bool → Nat → List Bool} {P : List Nat} {C : Nat → Prop}
    (hsound : ∀ arr, ∀ p ∈ P, (∀ j, arr.getD j false = true → C j) →
      ∀ j, (step arr p).getD j false = true → C j)
    (arr : List Bool) (hInv : ∀ j, arr.getD j false = true → C j) :
    ∀ j, (P.foldl step arr).getD j false = true → C j := by
  induction P generalizing arr with
  | nil => exact hInv
  | cons p P ih =>
    rw [List.foldl_cons]
    exact ih (fun a q hq => hsound a q (List.mem_cons_of_mem p hq))
      _ (hsound arr p (List.mem_cons_self p P) hInv)

/-- If `q ∈ P` is never-marked (`¬ C q`), its step fires and marks `c`;
afterwards `c` stays marked. -/
theorem foldl_sieve_complete {step : List Bool → Nat → List Bool} {P : List Nat}
    {C : Nat → Prop} {q c L : Nat}
    (hsound : ∀ arr, ∀ p ∈ P, (∀ j, arr.getD j false = true → C j) →
      ∀ j, (step arr p).getD j false = true → C j)
    (hlen : ∀ arr, ∀ p ∈ P, (step arr p).length = arr.length)
    (hmono : ∀ arr, ∀ p ∈ P, ∀ i, arr.getD i false = true → (step arr p).getD i false = true)
    (hmark : ∀ arr, arr.length = L → arr.getD q false = false →
      (step arr q).getD c false = true)
    (hqC : ¬ C q) (hq : q ∈ P) (arr : List Bool) (harrlen : arr.length = L)
    (hInv : ∀ j, arr.getD j false = true → C j) :
    (P.foldl step arr).getD c false = true := by
  induction P generalizing arr with
  | nil => exact absurd hq (List.not_mem_nil q)
  | cons p P ih =>
    rw [List.foldl_cons]
    by_cases hpq : p = q
    · subst hpq
      have hqfalse : arr.getD p false = false := by
        cases harr : arr.getD p false
        · rfl
        · exact absurd (hInv p harr) hqC
      exact foldl_sieve_mono (fun a r hr => hmono a r (List.mem_cons_of_mem p hr))
        _ c (hmark arr harrlen hqfalse)
    · have hq' : q ∈ P := by
        rcases List.mem_cons.mp hq with h | h
        · exact absurd h.symm hpq
        · exact h
      exact ih (fun a r hr => hsound a r (List.mem_cons_of_mem p hr))
        (fun a r hr => hlen a r (List.mem_cons_of_mem p hr))
        (fun a r hr => hmono a r (List.mem_cons_of_mem p hr))
        hq' _ (by rw [hlen arr p (List.mem_cons_self p P)]; exact harrlen)
        (hsound arr p (List.mem_cons_self p P) hInv)

/-- Everything the inner marking loop of a sieve marks, starting at `p*p`
in steps that are multiples of `p` (with `p ≥ 2`), is composite. -/
theorem not_prime_of_mem_markRange {p s j N : Nat} (hp : 2 ≤ p) (hs : p ∣ s) (hs0 : 0 < s)
    (hj : j ∈ loopRange (p * p) N s) : ¬ Nat.Prime j := by
  rw [mem_loopRange_iff hs0] at hj
  obtain ⟨⟨i, rfl⟩, _⟩ := hj
  obtain ⟨t, rfl⟩ := hs
  have heq : p * p + p * t * i = p * (p + t * i) := by ring
  rw [heq]
  exact Nat.not_prime_mul (by omega) (by omega)

/-- Soundness of one sieve step (shared shape of `seqSieveStep` and
`baseSieveStep`): if every marked entry is composite before the step, the
same holds after, provided the step's marking list only contains composites. -/
theorem sieveStep_sound {arr : List Bool} {ms : List Nat} {p : Nat}
    (hms : ∀ m ∈ ms, ¬ Nat.Prime m)
    (hInv : ∀ j, arr.getD j false = true → ¬ Nat.Prime j) :
    ∀ j, ((if arr.getD p false then arr else markTrue arr ms).getD j false = true) →
      ¬ Nat.Prime j := by
  intro j hj
  by_cases harr : arr.getD p false
  · rw [if_pos harr] at hj
    exact hInv j hj
  · rw [if_neg harr] at hj
    have hjlen : j < (markTrue arr ms).length := lt_length_of_getD_true hj
    rw [markTrue_length] at hjlen
    rw [getD_markTrue hjlen] at hj
    rcases Bool.or_eq_true_iff.mp hj with h | h
    · exact hInv j h
    · exact hms j (of_decide_eq_true h)

/-! ## The specification-side prime lists -/

theorem mem_primesUpTo {n m : Nat} : m ∈ primesUpTo n ↔ Nat.Prime m ∧ m ≤ n := by
  rw [primesUpTo, List.mem_filter, List.mem_range, isPrime_eq_true_iff]
  constructor
  · rintro ⟨h1, h2⟩; exact ⟨h2, by omega⟩
  · rintro ⟨h1, h2⟩; exact ⟨by omega, h1⟩

theorem primesUpTo_sorted (n : Nat) : (primesUpTo n).Sorted (· < ·) :=
  (List.pairwise_lt_range (n + 1)).filter _

theorem primesUpTo_eq_nil_of_lt_two {n : Nat} (h : n < 2) : primesUpTo n = [] := by
  rw [List.eq_nil_iff_forall_not_mem]
  intro m hm
  rw [mem_primesUpTo] at hm
  have := hm.1.two_le
  omega

/-! ## Correctness of `sieveOfEratosthenesSequential` -/

theorem getD_replicate_false {n j : Nat} :
    (List.replicate n false).getD j false = false := by
  rcases Nat.lt_or_ge j n with h | h
  · simp [List.getD_eq_getElem?_getD, List.getElem?_replicate, h]
  · exact getD_eq_default_of_le (by simpa using h)

/-- The pre-marked entries of the `isNotPrime` array are exactly 0 and 1. -/
theorem seqInit_getD {N j : Nat} (hN : 1 ≤ N) :
    ((((List.replicate (N + 1) false).set 0 true).set 1 true).getD j false = true) ↔
      (j = 0 ∨ j = 1) := by
  by_cases h1 : j = 1
  · subst h1
    rw [getD_set_self (by simp; omega)]
    simp
  · rw [getD_set_ne (Ne.symm h1)]
    by_cases h0 : j = 0
    · subst h0
      rw [getD_set_self (by simp)]
      simp
    · rw [getD_set_ne (Ne.symm h0), getD_replicate_false]
      simp [h0, h1]

theorem seqSieveStep_length (N : Nat) (arr : List Bool) (p : Nat) :
    (seqSieveStep N arr p).length = arr.length := by
  rw [seqSieveStep]
  by_cases h : arr.getD p false
  · rw [if_pos h]
  · rw [if_neg h, markTrue_length]

theorem seqSieveStep_mono (N : Nat) (arr : List Bool) (p i : Nat)
    (h : arr.getD i false = true) : (seqSieveStep N arr p).getD i false = true := by
  rw [seqSieveStep]
  by_cases hp : arr.getD p false
  · rwa [if_pos hp]
  · rw [if_neg hp]
    exact getD_markTrue_mono h

theorem seqSieveArray_length (N : Nat) : (seqSieveArray N).length = N + 1 := by
  rw [seqSieveArray, foldl_sieve_length (fun a p _ => seqSieveStep_length N a p)]
  simp

/-- Characterization of the `isNotPrime` array of the plain sequential
sieve: an entry `2 ≤ i ≤ N` ends up marked exactly when `i` is composite. -/
theorem seqSieveArray_marked_iff {N i : Nat} (h2 : 2 ≤ i) (hiN : i ≤ N) :
    ((seqSieveArray N).getD i false = true) ↔ ¬ Nat.Prime i := by
  have hN : 2 ≤ N := le_trans h2 hiN
  have hInv : ∀ j, ((((List.replicate (N + 1) false).set 0 true).set 1 true).getD j false = true)
      → ¬ Nat.Prime j := by
    intro j hj
    rcases (seqInit_getD (by omega)).mp hj with h | h <;> subst h
    · exact Nat.not_prime_zero
    · exact Nat.not_prime_one
  have hsound : ∀ arr, ∀ p ∈ loopRange 2 (intSqrt N) 1,
      (∀ j, arr.getD j false = true → ¬ Nat.Prime j) →
      ∀ j, ((seqSieveStep N arr p).getD j false = true) → ¬ Nat.Prime j := by
    intro arr p hp hinv
    have hpb := mem_loopRange_bounds hp
    rw [seqSieveStep]
    exact sieveStep_sound
      (fun m hm => not_prime_of_mem_markRange (by omega) (Dvd.intro 1 (by omega)) (by omega) hm)
      hinv
  constructor
  · intro h
    exact foldl_sieve_sound hsound _ hInv i h
  · intro hnp
    have hi1 : i ≠ 1 := by omega
    have hqp : Nat.Prime i.minFac := Nat.minFac_prime hi1
    have hqd : i.minFac ∣ i := Nat.minFac_dvd i
    have hqsq : i.minFac * i.minFac ≤ i := by
      have := Nat.minFac_sq_le_self (by omega : 0 < i) hnp
      rwa [Nat.pow_two] at this
    have hq2 : 2 ≤ i.minFac := hqp.two_le
    have hqsqrt : i.minFac ≤ Nat.sqrt N := Nat.le_sqrt.mpr (le_trans hqsq hiN)
    have hqmem : i.minFac ∈ loopRange 2 (intSqrt N) 1 := by
      rw [intSqrt_eq_sqrt, mem_loopRange_iff (by omega)]
      exact ⟨⟨i.minFac - 2, by omega⟩, hqsqrt⟩
    have hcmem : i ∈ loopRange (i.minFac * i.minFac) N i.minFac := by
      rw [mem_loopRange_iff (by omega)]
      refine ⟨?_, hiN⟩
      have hm : i.minFac * (i / i.minFac) = i := Nat.mul_div_cancel' hqd
      have hqm : i.minFac ≤ i / i.minFac := by
        by_contra hc
        have : i.minFac * (i / i.minFac) < i.minFac * i.minFac :=
          (Nat.mul_lt_mul_left (by omega : 0 < i.minFac)).mpr (by omega)
        omega
      obtain ⟨d, hd⟩ : ∃ d, i / i.minFac = i.minFac + d := ⟨i / i.minFac - i.minFac, by omega⟩
      have hfact : i = i.minFac * (i.minFac + d) := by
        rw [← hd]
        exact hm.symm
      refine ⟨d, ?_⟩
      conv_lhs => rw [hfact]
      ring
    have hmark : ∀ arr, arr.length = N + 1 → arr.getD i.minFac false = false →
        ((seqSieveStep N arr i.minFac).getD i false = true) := by
      intro arr hlen hfalse
      rw [seqSieveStep, if_neg (by rw [hfalse]; exact Bool.false_ne_true)]
      rw [getD_markTrue (by omega)]
      exact Bool.or_eq_true_iff.mpr (Or.inr (decide_eq_true hcmem))
    refine foldl_sieve_complete hsound (fun a p _ => seqSieveStep_length N a p)
      (fun a p _ => seqSieveStep_mono N a p) hmark ?_ hqmem _ (by simp) hInv
    intro hc
    exact hc hqp

/-- The plain sequential sieve computes exactly the primes up to `N`. -/
theorem sieveOfEratosthenesSequential_eq (N : Nat) :
    sieveOfEratosthenesSequential N = primesUpTo N := by
  by_cases hN : N < 2
  · rw [sieveOfEratosthenesSequential, if_pos hN, primesUpTo_eq_nil_of_lt_two hN]
  · rw [sieveOfEratosthenesSequential, if_neg hN]
    apply eq_of_sorted_of_mem_iff
    · exact (loopRange_sorted (by omega)).filter _
    · exact primesUpTo_sorted N
    · intro m
      rw [List.mem_filter, mem_primesUpTo, mem_loopRange_iff (by omega)]
      constructor
      · rintro ⟨⟨⟨t, rfl⟩, hle⟩, hmark⟩
        have h2 : 2 ≤ 2 + 1 * t := by omega
        refine ⟨?_, hle⟩
        by_contra hnp
        have := (seqSieveArray_marked_iff h2 hle).mpr hnp
        rw [this] at hmark
        exact Bool.false_ne_true (by simpa using hmark)
      · rintro ⟨hp, hle⟩
        have h2 := hp.two_le
        refine ⟨⟨⟨m - 2, by omega⟩, hle⟩, ?_⟩
        have : ¬ ((seqSieveArray N).getD m false = true) := by
          rw [seqSieveArray_marked_iff h2 hle]
          exact fun hc => hc hp
        simp only [Bool.not_eq_true] at this
        show (!(seqSieveArray N).getD m false) = true
        rw [this]
        rfl

/-! ## Correctness of `sieveOfEratosthenesSequentialBase` -/

theorem baseSieveStep_length (L : Nat) (arr : List Bool) (p : Nat) :
    (baseSieveStep L arr p).length = arr.length := by
  rw [baseSieveStep]
  by_cases h : arr.getD p false
  · rw [if_pos h]
  · rw [if_neg h, markTrue_length]

theorem baseSieveStep_mono (L : Nat) (arr : List Bool) (p i : Nat)
    (h : arr.getD i false = true) : (baseSieveStep L arr p).getD i false = true := by
  rw [baseSieveStep]
  by_cases hp : arr.getD p false
  · rwa [if_pos hp]
  · rw [if_neg hp]
    exact getD_markTrue_mono h

theorem baseSieveArray_length (L : Nat) : (baseSieveArray L).length = L + 1 := by
  rw [baseSieveArray, foldl_sieve_length (fun a p _ => baseSieveStep_length L a p)]
  simp

/-- Characterization of the `isComposite` array of the odd-only base sieve:
an odd entry `3 ≤ i ≤ L` ends up marked exactly when `i` is composite. -/
theorem baseSieveArray_marked_iff {L i : Nat} (h3 : 3 ≤ i) (hodd : i % 2 = 1) (hiL : i ≤ L) :
    ((baseSieveArray L).getD i false = true) ↔ ¬ Nat.Prime i := by
  have hInv : ∀ j, ((List.replicate (L + 1) false).getD j false = true) → ¬ Nat.Prime j := by
    intro j hj
    rw [getD_replicate_false] at hj
    exact absurd hj Bool.false_ne_true
  have hsound : ∀ arr, ∀ p ∈ loopRange 3 (intSqrt L) 2,
      (∀ j, arr.getD j false = true → ¬ Nat.Prime j) →
      ∀ j, ((baseSieveStep L arr p).getD j false = true) → ¬ Nat.Prime j := by
    intro arr p hp hinv
    have hpb := mem_loopRange_bounds hp
    rw [baseSieveStep]
    exact sieveStep_sound
      (fun m hm => not_prime_of_mem_markRange (by omega) ⟨2, by ring⟩ (by omega) hm)
      hinv
  constructor
  · intro h
    exact foldl_sieve_sound hsound _ hInv i h
  · intro hnp
    have hqp : Nat.Prime i.minFac := Nat.minFac_prime (by omega)
    have hqd : i.minFac ∣ i := Nat.minFac_dvd i
    have hqsq : i.minFac * i.minFac ≤ i := by
      have := Nat.minFac_sq_le_self (by omega : 0 < i) hnp
      rwa [Nat.pow_two] at this
    have hq2 : 2 ≤ i.minFac := hqp.two_le
    have hqne2 : i.minFac ≠ 2 := by
      intro hc
      rw [hc] at hqd
      omega
    have hqodd : i.minFac % 2 = 1 := by
      rcases hqp.eq_two_or_odd with h | h
      · exact absurd h hqne2
      · exact h
    have hq3 : 3 ≤ i.minFac := by omega
    have hqsqrt : i.minFac ≤ Nat.sqrt L := Nat.le_sqrt.mpr (le_trans hqsq hiL)
    have hqmem : i.minFac ∈ loopRange 3 (intSqrt L) 2 := by
      rw [intSqrt_eq_sqrt, mem_loopRange_iff (by omega)]
      exact ⟨⟨(i.minFac - 3) / 2, by omega⟩, hqsqrt⟩
    have hm : i.minFac * (i / i.minFac) = i := Nat.mul_div_cancel' hqd
    have hqm : i.minFac ≤ i / i.minFac := by
      by_contra hc
      have : i.minFac * (i / i.minFac) < i.minFac * i.minFac :=
        (Nat.mul_lt_mul_left (by omega : 0 < i.minFac)).mpr (by omega)
      omega
    have hmodd : (i / i.minFac) % 2 = 1 := by
      rcases Nat.even_or_odd (i / i.minFac) with he | ho
      · obtain ⟨k, hk⟩ := he
        have : i = 2 * (i.minFac * k) := by
          conv_lhs => rw [← hm]
          rw [hk]
          ring
        omega
      · obtain ⟨k, hk⟩ := ho
        omega
    obtain ⟨d, hd⟩ : ∃ d, i / i.minFac = i.minFac + d := ⟨i / i.minFac - i.minFac, by omega⟩
    have hdeven : d % 2 = 0 := by omega
    have hfact : i = i.minFac * (i.minFac + d) := by
      rw [← hd]
      exact hm.symm
    have hcmem : i ∈ loopRange (i.minFac * i.minFac) L (2 * i.minFac) := by
      rw [mem_loopRange_iff (by omega)]
      refine ⟨⟨d / 2, ?_⟩, hiL⟩
      have hsplit : i.minFac * (i.minFac + d) =
          i.minFac * i.minFac + 2 * i.minFac * (d / 2) := by
        have h2d : 2 * (d / 2) = d := by omega
        calc i.minFac * (i.minFac + d)
            = i.minFac * i.minFac + i.minFac * d := by ring
          _ = i.minFac * i.minFac + i.minFac * (2 * (d / 2)) := by rw [h2d]
          _ = i.minFac * i.minFac + 2 * i.minFac * (d / 2) := by ring
      conv_lhs => rw [hfact, hsplit]
    have hmark : ∀ arr, arr.length = L + 1 → arr.getD i.minFac false = false →
        ((baseSieveStep L arr i.minFac).getD i false = true) := by
      intro arr hlen hfalse
      rw [baseSieveStep, if_neg (by rw [hfalse]; exact Bool.false_ne_true)]
      rw [getD_markTrue (by omega)]
      exact Bool.or_eq_true_iff.mpr (Or.inr (decide_eq_true hcmem))
    refine foldl_sieve_complete hsound (fun a p _ => baseSieveStep_length L a p)
      (fun a p _ => baseSieveStep_mono L a p) hmark ?_ hqmem _ (by simp) hInv
    intro hc
    exact hc hqp

/-- The odd-only base sieve computes exactly the primes up to `L`. -/
theorem sieveOfEratosthenesSequentialBase_eq (L : Nat) :
    sieveOfEratosthenesSequentialBase L = primesUpTo L := by
  by_cases hL : L < 2
  · rw [sieveOfEratosthenesSequentialBase, if_pos hL, primesUpTo_eq_nil_of_lt_two hL]
  · rw [sieveOfEratosthenesSequentialBase, if_neg hL, if_pos (by omega : 2 ≤ L),
      List.singleton_append]
    apply eq_of_sorted_of_mem_iff
    · rw [List.sorted_cons]
      constructor
      · intro b hb
        have := (List.mem_filter.mp hb).1
        have hb3 := (mem_loopRange_bounds this).1
        omega
      · exact (loopRange_sorted (by omega)).filter _
    · exact primesUpTo_sorted L
    · intro m
      rw [List.mem_cons, List.mem_filter, mem_primesUpTo,
        mem_loopRange_iff (by omega : (0 : Nat) < 2)]
      constructor
      · rintro (rfl | ⟨⟨⟨t, rfl⟩, hle⟩, hmark⟩)
        · exact ⟨Nat.prime_two, by omega⟩
        · have h3 : 3 ≤ 3 + 2 * t := by omega
          have hodd : (3 + 2 * t) % 2 = 1 := by omega
          refine ⟨?_, hle⟩
          by_contra hnp
          have := (baseSieveArray_marked_iff h3 hodd hle).mpr hnp
          have hmark' : (!(baseSieveArray L).getD (3 + 2 * t) false) = true := hmark
          rw [this] at hmark'
          exact Bool.false_ne_true (by simpa using hmark')
      · rintro ⟨hp, hle⟩
        by_cases hm2 : m = 2
        · exact Or.inl hm2
        · have hodd : m % 2 = 1 := by
            rcases hp.eq_two_or_odd with h | h
            · exact absurd h hm2
            · exact h
          have h3 : 3 ≤ m := by
            have := hp.two_le
            omega
          refine Or.inr ⟨⟨⟨(m - 3) / 2, by omega⟩, hle⟩, ?_⟩
          have hfalse : ¬ ((baseSieveArray L).getD m false = true) := by
            rw [baseSieveArray_marked_iff h3 hodd hle]
            exact fun hc => hc hp
          simp only [Bool.not_eq_true] at hfalse
          show (!(baseSieveArray L).getD m false) = true
          rw [hfalse]
          rfl

/-! ## The segment bitset -/

theorem getD_replicate_self {α} {n j : Nat} (a : α) :
    (List.replicate n a).getD j a = a := by
  rcases Nat.lt_or_ge j n with h | h
  · simp [List.getD_eq_getElem?_getD, List.getElem?_replicate, h]
  · exact getD_eq_default_of_le (by simpa using h)

theorem isBitMarkedSegment_eq_testBit (i : Nat) (bs : List Nat) :
    isBitMarkedSegment i bs = (bs.getD (i / 8) 0).testBit (i % 8) := by
  show ((bs.getD (i / 8) 0 &&& (1 <<< (i % 8))) != 0) = (bs.getD (i / 8) 0).testBit (i % 8)
  rw [Nat.one_shiftLeft]
  cases h : (bs.getD (i / 8) 0).testBit (i % 8)
  · have hz : bs.getD (i / 8) 0 &&& 2 ^ (i % 8) = 0 := by
      apply Nat.eq_of_testBit_eq
      intro j
      rw [Nat.testBit_and, Nat.zero_testBit]
      by_cases hj : j = i % 8
      · subst hj
        rw [h]
        rfl
      · rw [Nat.testBit_two_pow_of_ne (Ne.symm hj), Bool.and_false]
    rw [hz]
    rfl
  · have hnz : (bs.getD (i / 8) 0 &&& 2 ^ (i % 8)).testBit (i % 8) = true := by
      rw [Nat.testBit_and, h, Nat.testBit_two_pow_self, Bool.and_true]
    refine bne_iff_ne.mpr ?_
    intro hc
    rw [hc, Nat.zero_testBit] at hnz
    exact Bool.false_ne_true hnz

theorem markBitSegment_length (i : Nat) (bs : List Nat) :
    (markBitSegment i bs).length = bs.length := by
  show (bs.set (i / 8) (bs.getD (i / 8) 0 ||| (1 <<< (i % 8)))).length = bs.length
  rw [List.length_set]

/-- Marking one index changes exactly that index's bit. -/
theorem isBitMarked_markBit {i m : Nat} {bs : List Nat} (hi : i / 8 < bs.length) :
    isBitMarkedSegment i (markBitSegment m bs) =
      (isBitMarkedSegment i bs || decide (i = m)) := by
  rw [isBitMarkedSegment_eq_testBit, isBitMarkedSegment_eq_testBit]
  show ((bs.set (m / 8) (bs.getD (m / 8) 0 ||| (1 <<< (m % 8)))).getD (i / 8) 0).testBit
      (i % 8) = _
  by_cases hbyte : i / 8 = m / 8
  · rw [← hbyte, getD_set_self (by omega), Nat.one_shiftLeft, Nat.testBit_or,
      Nat.testBit_two_pow]
    congr 1
    simp only [decide_eq_decide]
    omega
  · rw [getD_set_ne (fun hh => hbyte hh.symm)]
    have hne : i ≠ m := fun hh => hbyte (by rw [hh])
    simp [hne]

theorem isBitMarked_markBit_self {i : Nat} {bs : List Nat} (hi : i / 8 < bs.length) :
    isBitMarkedSegment i (markBitSegment i bs) = true := by
  rw [isBitMarked_markBit hi]
  simp

theorem set_getD_self {α} : ∀ (l : List α) (n : Nat) (d : α), l.set n (l.getD n d) = l
  | [], _, _ => rfl
  | _ :: _, 0, _ => rfl
  | a :: l, n + 1, d => congrArg (a :: ·) (set_getD_self l n d)

/-- Marking an already-marked index leaves the bitset unchanged. -/
theorem markBitSegment_idem {i : Nat} {bs : List Nat}
    (h : isBitMarkedSegment i bs = true) : markBitSegment i bs = bs := by
  rw [isBitMarkedSegment_eq_testBit] at h
  have hb : bs.getD (i / 8) 0 ||| (1 <<< (i % 8)) = bs.getD (i / 8) 0 := by
    rw [Nat.one_shiftLeft]
    apply Nat.eq_of_testBit_eq
    intro j
    rw [Nat.testBit_or]
    by_cases hj : j = i % 8
    · subst hj
      rw [h, Nat.testBit_two_pow_self, Bool.true_or]
    · rw [Nat.testBit_two_pow_of_ne (fun hh => hj hh.symm), Bool.or_false]
  show bs.set (i / 8) (bs.getD (i / 8) 0 ||| (1 <<< (i % 8))) = bs
  rw [hb, set_getD_self]

/-- The inner marking fold of `segMarkPrime` preserves the bitset length. -/
theorem foldMark_length (low : Nat) (ms : List Nat) (bs : List Nat) :
    (ms.foldl (fun b multiple =>
      if low ≤ multiple then markBitSegment (multiple - low) b else b) bs).length =
      bs.length := by
  induction ms generalizing bs with
  | nil => rfl
  | cons m ms ih =>
    rw [List.foldl_cons, ih]
    by_cases h : low ≤ m
    · rw [if_pos h, markBitSegment_length]
    · rw [if_neg h]

/-- Characterization of the inner marking fold: index `i` ends up marked iff
it was marked before or some listed multiple `≥ low` addresses it. -/
theorem isBitMarked_foldMark {low : Nat} {ms : List Nat} {bs : List Nat} {i : Nat}
    (hi : i / 8 < bs.length) :
    isBitMarkedSegment i (ms.foldl (fun b multiple =>
        if low ≤ multiple then markBitSegment (multiple - low) b else b) bs) =
      (isBitMarkedSegment i bs || decide (∃ m ∈ ms, low ≤ m ∧ m - low = i)) := by
  induction ms generalizing bs with
  | nil => simp
  | cons m ms ih =>
    rw [List.foldl_cons]
    by_cases h : low ≤ m
    · rw [if_pos h, ih (by rw [markBitSegment_length]; exact hi), isBitMarked_markBit hi,
        Bool.or_assoc]
      congr 1
      have hiff : (i = m - low ∨ ∃ x ∈ ms, low ≤ x ∧ x - low = i) ↔
          (∃ x ∈ m :: ms, low ≤ x ∧ x - low = i) := by
        constructor
        · rintro (rfl | ⟨x, hx, hlx, hex⟩)
          · exact ⟨m, List.mem_cons_self m ms, h, rfl⟩
          · exact ⟨x, List.mem_cons_of_mem m hx, hlx, hex⟩
        · rintro ⟨x, hx, hlx, hex⟩
          rcases List.mem_cons.mp hx with rfl | hx'
          · exact Or.inl hex.symm
          · exact Or.inr ⟨x, hx', hlx, hex⟩
      rw [← Bool.decide_or, decide_eq_decide]
      exact hiff
    · rw [if_neg h, ih hi]
      congr 1
      rw [decide_eq_decide]
      constructor
      · rintro ⟨x, hx, hlx, hex⟩
        exact ⟨x, List.mem_cons_of_mem m hx, hlx, hex⟩
      · rintro ⟨x, hx, hlx, hex⟩
        rcases List.mem_cons.mp hx with rfl | hx'
        · exact absurd hlx h
        · exact ⟨x, hx', hlx, hex⟩

/-- The multiples the worker marks for base prime `p` are exactly the
multiples of `p` in `[max(ceil(low/p)*p, p*p), high]`, i.e. the multiples
that are `≥ low` and `≥ p*p`. -/
theorem mem_segMultiples {p low high m : Nat} (hp : 0 < p) :
    m ∈ segMultiples p low high ↔ (p ∣ m ∧ low ≤ m ∧ p * p ≤ m ∧ m ≤ high) := by
  have hdm := Nat.div_add_mod (low + p - 1) p
  have hmod := Nat.mod_lt (low + p - 1) hp
  have hcomm : p * ((low + p - 1) / p) = ((low + p - 1) / p) * p :=
    Nat.mul_comm p ((low + p - 1) / p)
  have hSlow : low ≤ ((low + p - 1) / p) * p := by omega
  have hSdvd : p ∣ ((low + p - 1) / p) * p := dvd_mul_left p _
  have hSmin : ∀ k, low ≤ p * k → (low + p - 1) / p ≤ k := by
    intro k hk
    by_contra hc
    have hk1 : k + 1 ≤ (low + p - 1) / p := by omega
    have := Nat.mul_le_mul_left p hk1
    have hmul : p * (k + 1) = p * k + p := by ring
    omega
  show m ∈ loopRange (if ((low + p - 1) / p) * p < p * p then p * p
    else ((low + p - 1) / p) * p) high p ↔ _
  rw [mem_loopRange_iff hp]
  constructor
  · rintro ⟨⟨i, rfl⟩, hle⟩
    by_cases hc : ((low + p - 1) / p) * p < p * p
    · rw [if_pos hc] at hle ⊢
      refine ⟨⟨p + i, by ring⟩, by omega, by omega, hle⟩
    · rw [if_neg hc] at hle ⊢
      obtain ⟨c, hcc⟩ := hSdvd
      refine ⟨⟨c + i, by rw [hcc]; ring⟩, by omega, by omega, hle⟩
  · rintro ⟨⟨a, ha⟩, hlow, hsq, hhigh⟩
    refine ⟨?_, hhigh⟩
    have hstart : (if ((low + p - 1) / p) * p < p * p then p * p
        else ((low + p - 1) / p) * p) ≤ m := by
      split
      · exact hsq
      · have h1 := hSmin a (by omega)
        have h2 := Nat.mul_le_mul_right p h1
        have h3 : a * p = p * a := Nat.mul_comm a p
        omega
    have hsdvd : p ∣ (if ((low + p - 1) / p) * p < p * p then p * p
        else ((low + p - 1) / p) * p) := by
      split
      · exact dvd_mul_left p p
      · exact hSdvd
    obtain ⟨b, hb⟩ := hsdvd
    have hba : b ≤ a := by
      have h1 : p * b ≤ p * a := by omega
      exact Nat.le_of_mul_le_mul_left h1 hp
    refine ⟨a - b, ?_⟩
    have hsum : b + (a - b) = a := by omega
    calc m = p * a := ha
      _ = p * (b + (a - b)) := by rw [hsum]
      _ = p * b + p * (a - b) := by ring
      _ = _ := by rw [← hb]

theorem segMarkPrime_length (p low high : Nat) (bs : List Nat) :
    (segMarkPrime p low high bs).length = bs.length :=
  foldMark_length low (segMultiples p low high) bs

/-- Marking of one base prime in a segment: index `i` (number `low + i`)
ends up marked iff it was marked or `low + i` is a multiple of `p` between
`p*p` and `high`. -/
theorem isBitMarked_segMarkPrime {p low high : Nat} {bs : List Nat} {i : Nat} (hp : 0 < p)
    (hi : i / 8 < bs.length) :
    isBitMarkedSegment i (segMarkPrime p low high bs) =
      (isBitMarkedSegment i bs ||
        decide (p ∣ (low + i) ∧ p * p ≤ low + i ∧ low + i ≤ high)) := by
  rw [segMarkPrime, isBitMarked_foldMark hi]
  congr 1
  rw [decide_eq_decide]
  constructor
  · rintro ⟨m, hm, hlm, hem⟩
    rw [mem_segMultiples hp] at hm
    have : m = low + i := by omega
    subst this
    exact ⟨hm.1, hm.2.2.1, hm.2.2.2⟩
  · rintro ⟨hdvd, hsq, hhigh⟩
    exact ⟨low + i, (mem_segMultiples hp).mpr ⟨hdvd, by omega, hsq, hhigh⟩, by omega, by omega⟩

theorem segPrimesLoop_length (low high : Nat) (bp : List Nat) (bs : List Nat) :
    (segPrimesLoop low high bp bs).length = bs.length := by
  induction bp generalizing bs with
  | nil => rfl
  | cons p rest ih =>
    rw [segPrimesLoop]
    by_cases h : high < p * p
    · rw [if_pos h]
    · rw [if_neg h, ih, segMarkPrime_length]

/-- Characterization of the whole base-prime marking loop (with its early
break): index `i` ends up marked iff some base prime before the break
divides `low + i` with its square `≤ low + i ≤ high`. -/
theorem isBitMarked_segPrimesLoop {low high : Nat} {bp : List Nat} {bs : List Nat} {i : Nat}
    (hbp : ∀ p ∈ bp, 0 < p) (hi : i / 8 < bs.length) :
    isBitMarkedSegment i (segPrimesLoop low high bp bs) =
      (isBitMarkedSegment i bs ||
        decide (∃ p ∈ bp.takeWhile (fun q => decide (q * q ≤ high)),
          p ∣ (low + i) ∧ p * p ≤ low + i ∧ low + i ≤ high)) := by
  induction bp generalizing bs with
  | nil => simp [segPrimesLoop]
  | cons p rest ih =>
    rw [segPrimesLoop]
    by_cases h : high < p * p
    · rw [if_pos h, List.takeWhile_cons, if_neg (by simp; omega)]
      simp
    · rw [if_neg h, ih (fun q hq => hbp q (List.mem_cons_of_mem p hq))
        (by rw [segMarkPrime_length]; exact hi),
        isBitMarked_segMarkPrime (hbp p (List.mem_cons_self p rest)) hi, Bool.or_assoc,
        List.takeWhile_cons, if_pos (by simp; omega)]
      congr 1
      rw [← Bool.decide_or, decide_eq_decide]
      constructor
      · rintro (hc | ⟨x, hx, hc⟩)
        · exact ⟨p, List.mem_cons_self _ _, hc⟩
        · exact ⟨x, List.mem_cons_of_mem p hx, hc⟩
      · rintro ⟨x, hx, hc⟩
        rcases List.mem_cons.mp hx with rfl | hx'
        · exact Or.inl hc
        · exact Or.inr ⟨x, hx', hc⟩

theorem isBitMarked_replicate_zero {n i : Nat} :
    isBitMarkedSegment i (List.replicate n 0) = false := by
  rw [isBitMarkedSegment_eq_testBit, getD_replicate_self, Nat.zero_testBit]

/-! ## Correctness of one segment task -/

theorem primesInRange_sorted (low high : Nat) : (primesInRange low high).Sorted (· < ·) :=
  (List.pairwise_lt_range (high + 1)).filter _

theorem mem_primesInRange {low high m : Nat} :
    m ∈ primesInRange low high ↔ max low 2 ≤ m ∧ Nat.Prime m ∧ m ≤ high := by
  rw [primesInRange, List.mem_filter, List.mem_range, Bool.and_eq_true, decide_eq_true_eq,
    isPrime_eq_true_iff]
  constructor
  · rintro ⟨h1, h2, h3⟩
    exact ⟨h2, h3, by omega⟩
  · rintro ⟨h1, h2, h3⟩
    exact ⟨by omega, h1, h2⟩

theorem segmentSieveTask_sorted (low high : Nat) (bp : List Nat) :
    (segmentSieveTask low high bp).Sorted (· < ·) := by
  show (((List.range (high - low + 1)).filter _).map (fun i => low + i)).Sorted (· < ·)
  exact ((List.pairwise_lt_range _).filter _).map _ (fun a b hab => by omega)

/-- Membership in a segment result: exactly the numbers of `[low, high]`
that are `≥ 2` and not marked by any processed base prime. -/
theorem mem_segmentSieveTask {low high : Nat} {bp : List Nat} {m : Nat}
    (hbp : ∀ p ∈ bp, 0 < p) (hlh : low ≤ high) :
    m ∈ segmentSieveTask low high bp ↔
      (low ≤ m ∧ m ≤ high ∧ 2 ≤ m ∧
        ¬ ∃ p ∈ bp.takeWhile (fun q => decide (q * q ≤ high)),
            p ∣ m ∧ p * p ≤ m ∧ m ≤ high) := by
  show m ∈ ((List.range (high - low + 1)).filter
      (fun i => !(decide (low + i < 2)) && !(isBitMarkedSegment i
        (segPrimesLoop low high bp (List.replicate ((high - low + 1 + 7) / 8) 0))))).map
      (fun i => low + i) ↔ _
  rw [List.mem_map]
  constructor
  · rintro ⟨i, hi, rfl⟩
    rw [List.mem_filter, List.mem_range] at hi
    obtain ⟨hir, hpred⟩ := hi
    have hib : i / 8 < (List.replicate ((high - low + 1 + 7) / 8) (0 : Nat)).length := by
      rw [List.length_replicate]
      omega
    rw [Bool.and_eq_true, Bool.not_eq_true', Bool.not_eq_true'] at hpred
    obtain ⟨h2, hmk⟩ := hpred
    rw [isBitMarked_segPrimesLoop hbp hib, isBitMarked_replicate_zero, Bool.false_or,
      decide_eq_false_iff_not] at hmk
    have h2' : ¬ (low + i < 2) := of_decide_eq_false h2
    exact ⟨by omega, by omega, by omega, hmk⟩
  · rintro ⟨hlm, hmh, h2m, hnot⟩
    refine ⟨m - low, ?_, by omega⟩
    rw [List.mem_filter, List.mem_range]
    have hib : (m - low) / 8 <
        (List.replicate ((high - low + 1 + 7) / 8) (0 : Nat)).length := by
      rw [List.length_replicate]
      omega
    refine ⟨by omega, ?_⟩
    rw [Bool.and_eq_true, Bool.not_eq_true', Bool.not_eq_true']
    refine ⟨by rw [decide_eq_false_iff_not]; omega, ?_⟩
    rw [isBitMarked_segPrimesLoop hbp hib, isBitMarked_replicate_zero, Bool.false_or,
      decide_eq_false_iff_not]
    have heq : low + (m - low) = m := by omega
    rw [heq]
    exact hnot

/-- In a strictly sorted base-prime list, a member whose square is within the
bound survives the `p*p > high` break. -/
theorem mem_takeWhile_of_sorted {l : List Nat} {q high : Nat} (hsort : l.Sorted (· < ·))
    (hq : q ∈ l) (hqh : q * q ≤ high) :
    q ∈ l.takeWhile (fun p => decide (p * p ≤ high)) := by
  induction l with
  | nil => cases hq
  | cons a l ih =>
    have hal : ∀ b ∈ l, a < b := (List.sorted_cons.mp hsort).1
    have ha : a ≤ q := by
      rcases List.mem_cons.mp hq with heq | hql
      · omega
      · exact Nat.le_of_lt (hal q hql)
    have hpa : a * a ≤ high := le_trans (Nat.mul_le_mul ha ha) hqh
    rw [List.takeWhile_cons, if_pos (by simpa using hpa)]
    rcases List.mem_cons.mp hq with heq | hql
    · rw [heq]
      exact List.mem_cons_self a _
    · exact List.mem_cons_of_mem a (ih (List.sorted_cons.mp hsort).2 hql)

/-- The Segment Sieve contract (§4.3): given a sorted list of primes
containing every prime `p` with `p*p ≤ high`, a segment task returns exactly
the ascending primes of `[max(low, 2), high]`. -/
theorem segmentSieveTask_eq {low high : Nat} {bp : List Nat}
    (hsort : bp.Sorted (· < ·)) (hprime : ∀ p ∈ bp, Nat.Prime p)
    (hcomplete : ∀ p, Nat.Prime p → p * p ≤ high → p ∈ bp) (hlh : low ≤ high) :
    segmentSieveTask low high bp = primesInRange low high := by
  refine eq_of_sorted_of_mem_iff (segmentSieveTask_sorted low high bp)
    (primesInRange_sorted low high) ?_
  intro m
  rw [mem_segmentSieveTask (fun p hp => (hprime p hp).pos) hlh, mem_primesInRange]
  constructor
  · rintro ⟨hlm, hmh, h2m, hnot⟩
    refine ⟨by omega, ?_, hmh⟩
    by_contra hnp
    have hq := Nat.minFac_prime (show m ≠ 1 by omega)
    have hqd := Nat.minFac_dvd m
    have hqsq : m.minFac * m.minFac ≤ m := by
      have := Nat.minFac_sq_le_self (by omega : 0 < m) hnp
      rwa [Nat.pow_two] at this
    exact hnot ⟨m.minFac, mem_takeWhile_of_sorted hsort
      (hcomplete _ hq (le_trans hqsq hmh)) (le_trans hqsq hmh), hqd, hqsq, hmh⟩
  · rintro ⟨hmax, hp, hmh⟩
    have h2 := hp.two_le
    refine ⟨by omega, hmh, h2, ?_⟩
    rintro ⟨p, hpt, hpd, hpsq, _⟩
    have hpbp : p ∈ bp := (List.takeWhile_sublist _).subset hpt
    have hpp := hprime p hpbp
    have hp2 := hpp.two_le
    rcases Nat.Prime.eq_one_or_self_of_dvd hp p hpd with h1 | h1
    · omega
    · subst h1
      have := Nat.mul_le_mul_right p (show 2 ≤ p by omega)
      omega

/-! ## The segment planner -/

theorem planSegments_length (N W : Nat) : (planSegments N W).length = N / W + 1 := by
  rw [planSegments, List.length_map, loopRange, List.length_range', loopCount,
    if_pos (Nat.zero_le N), Nat.sub_zero]

/-- Membership characterization of the planned segments. -/
theorem mem_planSegments {N W : Nat} (hW : 0 < W) {s : Nat × Nat} :
    s ∈ planSegments N W ↔
      ∃ k ≤ N / W, s = (k * W, if N < k * W + W - 1 then N else k * W + W - 1) := by
  rw [planSegments, List.mem_map]
  constructor
  · rintro ⟨lo, hlo, rfl⟩
    rw [mem_loopRange_iff hW] at hlo
    obtain ⟨⟨k, rfl⟩, hle⟩ := hlo
    have hcomm : 0 + W * k = k * W := by ring
    refine ⟨k, ?_, by rw [hcomm]⟩
    rw [Nat.le_div_iff_mul_le hW]
    omega
  · rintro ⟨k, hk, rfl⟩
    refine ⟨k * W, ?_, rfl⟩
    rw [mem_loopRange_iff hW]
    have h1 := Nat.mul_le_mul_right W hk
    have h2 := Nat.div_mul_le_self N W
    exact ⟨⟨k, by ring⟩, by omega⟩

/-- Every planned segment is well-formed and lies inside `[0, N]`. -/
theorem planSegments_bounds {N W : Nat} (hW : 0 < W) {s : Nat × Nat}
    (hs : s ∈ planSegments N W) : s.1 ≤ s.2 ∧ s.2 ≤ N := by
  rw [mem_planSegments hW] at hs
  obtain ⟨k, hk, rfl⟩ := hs
  have h1 := Nat.mul_le_mul_right W hk
  have h2 := Nat.div_mul_le_self N W
  constructor
  · simp only
    split <;> omega
  · simp only
    split <;> omega

/-- The `k`-th planned segment is `[k*W, min(k*W + W - 1, N)]`. -/
theorem planSegments_getD {N W k : Nat} (hW : 0 < W) (hk : k < (planSegments N W).length) :
    (planSegments N W).getD k (0, 0) =
      (k * W, if N < k * W + W - 1 then N else k * W + W - 1) := by
  rw [planSegments_length] at hk
  have hcnt : loopCount 0 N W = N / W + 1 := by
    rw [loopCount, if_pos (Nat.zero_le N), Nat.sub_zero]
  rw [planSegments, List.getD_eq_getElem?_getD, List.getElem?_map, loopRange,
    List.getElem?_range' 0 W (by rw [hcnt]; omega)]
  simp only [Option.map_some', Option.getD_some]
  have : 0 + W * k = k * W := by ring
  rw [this]

/-- The planned segments tile `[0, N]`: the concatenation of their inclusive
number ranges, in dispatch order, is exactly `0, 1, …, N`. -/
theorem planSegments_join (N W : Nat) (hW : 0 < W) :
    ((planSegments N W).map (fun s => List.range' s.1 (s.2 + 1 - s.1))).flatten =
      List.range (N + 1) := by
  have key : ∀ n lo, (∀ i < n, lo + i * W ≤ N) → N < lo + n * W →
      ((List.range' lo n W).map (fun currentLow =>
        List.range' currentLow
          ((if N < currentLow + W - 1 then N else currentLow + W - 1) + 1 -
            currentLow))).flatten = List.range' lo (N + 1 - lo) := by
    intro n
    induction n with
    | zero =>
      intro lo h1 h2
      have : N + 1 - lo = 0 := by omega
      rw [this]
      simp
    | succ n ih =>
      intro lo h1 h2
      rw [List.range'_succ, List.map_cons, List.flatten_cons]
      by_cases hn : n = 0
      · subst hn
        have h1' := h1 0 (by omega)
        have hW1 : lo + 1 * W = lo + W := by ring
        have hhigh : (if N < lo + W - 1 then N else lo + W - 1) = N := by
          split <;> omega
        rw [hhigh]
        simp
      · have h1' := h1 1 (by omega)
        have hW1 : 1 * W = W := by ring
        have hlo1 : lo + W ≤ N := by omega
        have hhigh : (if N < lo + W - 1 then N else lo + W - 1) = lo + W - 1 := by
          rw [if_neg (by omega)]
        rw [hhigh, show lo + W - 1 + 1 - lo = W by omega]
        have hrec := ih (lo + W) (fun i hi => by
            have := h1 (i + 1) (by omega)
            have heq : (i + 1) * W = i * W + W := by ring
            omega)
          (by
            have heq : (n + 1) * W = n * W + W := by ring
            omega)
        rw [hrec]
        have happ := List.range'_append_1 lo W (N + 1 - lo - W)
        rw [show N + 1 - (lo + W) = N + 1 - lo - W by omega]
        rw [happ, show N + 1 - lo - W + W = N + 1 - lo by omega]
  have hcnt : loopCount 0 N W = N / W + 1 := by
    rw [loopCount, if_pos (Nat.zero_le N), Nat.sub_zero]
  have hdm := Nat.div_add_mod N W
  have hmod := Nat.mod_lt N hW
  have hres := key (N / W + 1) 0
    (fun i hi => by
      have h1 : i ≤ N / W := by omega
      have h2 := Nat.mul_le_mul_right W h1
      have h3 := Nat.div_mul_le_self N W
      omega)
    (by
      have heq : (N / W + 1) * W = N / W * W + W := by ring
      have hcm : W * (N / W) = N / W * W := by ring
      omega)
  rw [show (N + 1 - 0) = N + 1 by omega, ← List.range_eq_range'] at hres
  rw [planSegments, List.map_map, loopRange, hcnt]
  exact hres

/-! ## The full pipeline -/

theorem foldl_append_eq_flatten {α : Type} (l : List (List α)) :
    l.foldl (· ++ ·) ([] : List α) = l.flatten := by
  have key : ∀ (l : List (List α)) (acc : List α), l.foldl (· ++ ·) acc = acc ++ l.flatten := by
    intro l
    induction l with
    | nil => intro acc; simp
    | cons x xs ih =>
      intro acc
      rw [List.foldl_cons, ih, List.flatten_cons, List.append_assoc]
  rw [key]
  simp

theorem flatten_map_filter {α β : Type} (p : α → Bool) (f : β → List α) (l : List β) :
    (l.map (fun x => (f x).filter p)).flatten = ((l.map f).flatten).filter p := by
  induction l with
  | nil => rfl
  | cons x xs ih => rw [List.map_cons, List.flatten_cons, List.map_cons, List.flatten_cons,
      List.filter_append, ih]

theorem primesInRange_eq_filter_range' (low high : Nat) :
    primesInRange low high = (List.range' low (high + 1 - low)).filter isPrime := by
  refine eq_of_sorted_of_mem_iff (primesInRange_sorted low high)
    ((List.pairwise_lt_range' low _ 1 (by omega)).filter _) ?_
  intro m
  rw [mem_primesInRange, List.mem_filter, List.mem_range'_1, isPrime_eq_true_iff]
  constructor
  · rintro ⟨h1, h2, h3⟩
    exact ⟨⟨by omega, by omega⟩, h2⟩
  · rintro ⟨⟨h1, h2⟩, h3⟩
    have := h3.two_le
    exact ⟨by omega, h3, by omega⟩

theorem sorted_le_of_sorted_lt {l : List Nat} (h : l.Sorted (· < ·)) : l.Sorted (· ≤ ·) :=
  h.imp Nat.le_of_lt

/-- The whole segmented pipeline computes exactly the primes up to `N`,
for every positive segment width and regardless of the worker count. -/
theorem findPrimes_eq (N c W : Nat) (hW : 0 < W) :
    findPrimesWithSegmentedSieve N c W = primesUpTo N := by
  by_cases hN : N < 2
  · rw [findPrimesWithSegmentedSieve, if_pos hN, primesUpTo_eq_nil_of_lt_two hN]
  · rw [findPrimesWithSegmentedSieve, if_neg hN]
    show assembleAndSort (segResultsList N W
      (sieveOfEratosthenesSequentialBase (intSqrt N))) = primesUpTo N
    have hbp : sieveOfEratosthenesSequentialBase (intSqrt N) = primesUpTo (Nat.sqrt N) := by
      rw [intSqrt_eq_sqrt, sieveOfEratosthenesSequentialBase_eq]
    have hseg : ∀ s ∈ planSegments N W,
        segmentSieveTask s.1 s.2 (primesUpTo (Nat.sqrt N)) = primesInRange s.1 s.2 := by
      intro s hs
      have hb := planSegments_bounds hW hs
      refine segmentSieveTask_eq (primesUpTo_sorted _)
        (fun p hp => (mem_primesUpTo.mp hp).1) ?_ hb.1
      intro p hpp hple
      rw [mem_primesUpTo]
      exact ⟨hpp, Nat.le_sqrt.mpr (le_trans hple hb.2)⟩
    rw [assembleAndSort, segResultsList, hbp, foldl_append_eq_flatten,
      List.map_congr_left hseg,
      List.map_congr_left (fun s hs => primesInRange_eq_filter_range' s.1 s.2),
      flatten_map_filter, planSegments_join N W hW]
    show List.insertionSort (· ≤ ·) (primesUpTo N) = primesUpTo N
    exact (sorted_le_of_sorted_lt (primesUpTo_sorted N)).insertionSort_eq

/-! ## Index safety of the unchecked bitset accesses -/

theorem mem_workerMarkIndices_le {low high : Nat} (bp : List Nat) {idx : Nat}
    (h : idx ∈ workerMarkIndices low high bp) : idx ≤ high - low := by
  induction bp with
  | nil => cases h
  | cons p rest ih =>
    rw [workerMarkIndices] at h
    by_cases hc : high < p * p
    · rw [if_pos hc] at h
      cases h
    · rw [if_neg hc] at h
      rcases List.mem_append.mp h with h1 | h1
      · rw [segMarkIndices, List.mem_map] at h1
        obtain ⟨m, hm, rfl⟩ := h1
        rw [List.mem_filter] at hm
        have hmh : m ≤ high := (mem_loopRange_bounds hm.1).2
        omega
      · exact ih h1

theorem mem_workerProbeIndices_le {low high idx : Nat}
    (h : idx ∈ workerProbeIndices low high) : idx ≤ high - low := by
  rw [workerProbeIndices, List.mem_filter, List.mem_range] at h
  omega

/-! ## Claim theorems -/

/-- **C1.** For every `N ≥ 0` with a valid segment width and worker count,
`findPrimesWithSegmentedSieve` returns exactly the ascending list of all
primes in `[2, N]` — it equals the sequential reference sieve
`sieveOfEratosthenesSequential` run over `[0, N]` — and in particular it
returns the empty list for `N < 2`. -/
theorem claim_C1_refines_sequential_sieve (N c W : Nat) (hc : 0 < c) (hW : 0 < W) :
    findPrimesWithSegmentedSieve N c W = sieveOfEratosthenesSequential N ∧
    findPrimesWithSegmentedSieve N c W = primesUpTo N ∧
    (N < 2 → findPrimesWithSegmentedSieve N c W = []) := by
  refine ⟨?_, findPrimes_eq N c W hW, ?_⟩
  · rw [findPrimes_eq N c W hW, sieveOfEratosthenesSequential_eq]
  · intro h
    rw [findPrimes_eq N c W hW, primesUpTo_eq_nil_of_lt_two h]

theorem claim_C1_witness :
    (0 : Nat) < 4 ∧ (0 : Nat) < 10 ∧
    findPrimesWithSegmentedSieve 30 4 10 = sieveOfEratosthenesSequential 30 :=
  ⟨by decide, by decide,
    (claim_C1_refines_sequential_sieve 30 4 10 (by decide) (by decide)).1⟩

/-- **C2.** For every segment descriptor `(low, high)` with `low ≤ high`, if
the supplied base-prime list is strictly ascending, consists of primes, and
contains every prime `p` with `p*p ≤ high`, then the segment worker's result
is exactly the ascending list of primes in `[max(low, 2), high]`. -/
theorem claim_C2_segment_contract (low high : Nat) (bp : List Nat)
    (hsort : bp.Sorted (· < ·)) (hprime : ∀ p ∈ bp, isPrime p = true)
    (hcomplete : ∀ p ∈ List.range (high + 1), isPrime p = true → p * p ≤ high → p ∈ bp)
    (hlh : low ≤ high) :
    segmentSieveTask low high bp = primesInRange low high := by
  refine segmentSieveTask_eq hsort
    (fun p hp => (isPrime_eq_true_iff p).mp (hprime p hp)) ?_ hlh
  intro p hpp hple
  have hp1 : 1 ≤ p := hpp.pos
  have hmul := Nat.mul_le_mul_right p hp1
  have hone : 1 * p = p := by ring
  exact hcomplete p (List.mem_range.mpr (by omega))
    ((isPrime_eq_true_iff p).mpr hpp) hple

theorem claim_C2_witness :
    ([2, 3] : List Nat).Sorted (· < ·) ∧
    segmentSieveTask 10 19 [2, 3] = primesInRange 10 19 :=
  ⟨by decide, claim_C2_segment_contract 10 19 [2, 3] (by decide) (by decide)
    (by decide) (by decide)⟩

/-- **C3.** Within one segment task `(low, high)`, processing base prime `p`
marks exactly the multiples of `p` in `[max(p*p, ceil(low/p)*p), high]`
(characterised both through the divisibility condition and through the
explicit start-of-marking list `segMultiples`); every newly marked position
is `p*k` with `k ≥ p` (never `k < p`); and a base prime with `p*p > high`
makes the worker break out, marking nothing. -/
theorem claim_C3_per_prime_marking (p low high i : Nat) (bs rest : List Nat)
    (hp : 0 < p) (hi : i / 8 < bs.length) :
    (isBitMarkedSegment i (segMarkPrime p low high bs) =
      (isBitMarkedSegment i bs ||
        decide (p ∣ (low + i) ∧ p * p ≤ low + i ∧ low + i ≤ high))) ∧
    (∀ m, m ∈ segMultiples p low high ↔ (p ∣ m ∧ low ≤ m ∧ p * p ≤ m ∧ m ≤ high)) ∧
    (isBitMarkedSegment i (segMarkPrime p low high bs) = true →
      isBitMarkedSegment i bs = true ∨ ∃ k, p ≤ k ∧ low + i = p * k) ∧
    (high < p * p → segPrimesLoop low high (p :: rest) bs = bs) := by
  refine ⟨isBitMarked_segMarkPrime hp hi, fun m => mem_segMultiples hp, ?_, ?_⟩
  · intro h
    rw [isBitMarked_segMarkPrime hp hi] at h
    rcases Bool.or_eq_true_iff.mp h with h1 | h1
    · exact Or.inl h1
    · obtain ⟨⟨k, hk⟩, hsq, _⟩ := of_decide_eq_true h1
      refine Or.inr ⟨k, ?_, hk⟩
      by_contra hc
      have : p * k < p * p := (Nat.mul_lt_mul_left hp).mpr (by omega)
      omega
  · intro h
    rw [segPrimesLoop, if_pos h]

theorem claim_C3_witness :
    (0 : Nat) < 3 ∧ (2 : Nat) / 8 < ([0, 0] : List Nat).length ∧
    isBitMarkedSegment 2 (segMarkPrime 3 10 19 [0, 0]) =
      (isBitMarkedSegment 2 [0, 0] ||
        decide (3 ∣ (10 + 2) ∧ 3 * 3 ≤ 10 + 2 ∧ 10 + 2 ≤ 19)) :=
  ⟨by decide, by decide,
    (claim_C3_per_prime_marking 3 10 19 2 [0, 0] [] (by decide) (by decide)).1⟩

/-- **C4 counterexample.** The entry point does not fail fast on an invalid
configuration: called with the invalid worker count 0 (and `N = 1`, where the
source returns before touching any channel) it completes normally and
returns the empty list, and the driver `main` clamps a worker count of 0 to
the default 1 instead of the core rejecting it. -/
theorem claim_C4_counterexample :
    findPrimesWithSegmentedSieve 1 0 SegmentSizeInNumbers = [] ∧
    mainAdjustWorkers 0 = 1 := by
  constructor
  · rw [findPrimesWithSegmentedSieve, if_pos (by omega)]
  · rfl

/-- **C4 (amended).** The core entry point performs no configuration
validation and has no error result: it treats every worker count alike
(returning `[]` for `N < 2` even with worker count 0).  Validation lives in
the driver `main`: it clamps a non-positive worker count to the default 1
(logging the adjustment), leaves positive counts unchanged, and the segment
width is the fixed positive constant `SegmentSizeInNumbers = 524288`
(whose positivity `main` checks fatally). -/
theorem claim_C4_amended :
    (∀ n : Int, n ≤ 0 → mainAdjustWorkers n = 1) ∧
    (∀ n : Int, 0 < n → mainAdjustWorkers n = n) ∧
    (0 < SegmentSizeInNumbers) ∧
    (∀ c W : Nat, findPrimesWithSegmentedSieve 1 c W = []) := by
  refine ⟨?_, ?_, by decide, ?_⟩
  · intro n h
    rw [mainAdjustWorkers, if_pos h]
  · intro n h
    rw [mainAdjustWorkers, if_neg (by omega)]
  · intro c W
    rw [findPrimesWithSegmentedSieve, if_pos (by omega)]

theorem claim_C4_witness :
    mainAdjustWorkers (-3) = 1 ∧ mainAdjustWorkers 7 = 7 ∧
    findPrimesWithSegmentedSieve 1 0 SegmentSizeInNumbers = [] :=
  ⟨claim_C4_amended.1 (-3) (by decide), claim_C4_amended.2.1 7 (by decide),
    claim_C4_amended.2.2.2 0 SegmentSizeInNumbers⟩

/-- **C5.** For every `N ≥ 0` and width `W > 0` the planner yields
`⌈(N+1)/W⌉` segments; the `k`-th segment is `[k*W, min(k*W + W - 1, N)]`
(so segments are contiguous, ascending, start at 0, of width `W` except for
a shorter final segment ending at `N`); and every integer of `[0, N]` lies
in exactly one planned segment. -/
theorem claim_C5_segment_planner (N W : Nat) (hW : 0 < W) :
    (planSegments N W).length = (N + 1 + (W - 1)) / W ∧
    (∀ k, k < (planSegments N W).length →
      (planSegments N W).getD k (0, 0) =
        (k * W, if N < k * W + W - 1 then N else k * W + W - 1)) ∧
    (∀ m, m ≤ N → ∃! s, s ∈ planSegments N W ∧ s.1 ≤ m ∧ m ≤ s.2) := by
  refine ⟨?_, fun k hk => planSegments_getD hW hk, ?_⟩
  · rw [planSegments_length, show N + 1 + (W - 1) = N + W by omega, Nat.add_div_right N hW]
  · intro m hm
    have hdm := Nat.div_add_mod m W
    have hmodm := Nat.mod_lt m hW
    have hdivle : m / W ≤ N / W := Nat.div_le_div_right hm
    have hself := Nat.div_mul_le_self m W
    have hcm : W * (m / W) = m / W * W := by ring
    refine ⟨(m / W * W, if N < m / W * W + W - 1 then N else m / W * W + W - 1),
      ⟨(mem_planSegments hW).mpr ⟨m / W, hdivle, rfl⟩, ?_, ?_⟩, ?_⟩
    · simpa using hself
    · simp only
      split <;> omega
    · rintro ⟨lo2, hi2⟩ ⟨hmem2, hle2a, hle2b⟩
      rw [mem_planSegments hW] at hmem2
      obtain ⟨k2, hk2, heq2⟩ := hmem2
      have hlo2 : lo2 = k2 * W := (Prod.mk.injEq _ _ _ _ ▸ heq2).1
      have hhi2 : hi2 = if N < k2 * W + W - 1 then N else k2 * W + W - 1 :=
        (Prod.mk.injEq _ _ _ _ ▸ heq2).2
      have hup : m < k2 * W + W := by
        rcases Nat.lt_or_ge m (k2 * W + W) with h | h
        · exact h
        · exfalso
          simp only at hle2b
          rw [hhi2] at hle2b
          revert hle2b
          split <;> omega
      have hkeq : m / W = k2 := by
        apply Nat.div_eq_of_lt_le
        · simp only at hle2a
          omega
        · have : (k2 + 1) * W = k2 * W + W := by ring
          omega
      rw [heq2, ← hkeq]

theorem claim_C5_witness :
    (0 : Nat) < 3 ∧ (planSegments 7 3).length = (7 + 1 + (3 - 1)) / 3 :=
  ⟨by decide, (claim_C5_segment_planner 7 3 (by decide)).1⟩

/-- **C6.** For every `L ≥ 0`, the base sieve returns the ascending,
duplicate-free list of all primes `≤ L` (it equals `primesUpTo L`, whose
strict sortedness is `primesUpTo_sorted`); for `L < 2` it returns the empty
list; and for `L = 2` or `L = 3` the outer marking loop has an empty
iteration sequence, so no marking iteration executes. -/
theorem claim_C6_base_sieve (L : Nat) :
    sieveOfEratosthenesSequentialBase L = primesUpTo L ∧
    (sieveOfEratosthenesSequentialBase L).Sorted (· < ·) ∧
    (L < 2 → sieveOfEratosthenesSequentialBase L = []) ∧
    ((L = 2 ∨ L = 3) → loopRange 3 (intSqrt L) 2 = []) := by
  refine ⟨sieveOfEratosthenesSequentialBase_eq L, ?_, ?_, ?_⟩
  · rw [sieveOfEratosthenesSequentialBase_eq]
    exact primesUpTo_sorted L
  · intro h
    rw [sieveOfEratosthenesSequentialBase, if_pos h]
  · rintro (rfl | rfl) <;> decide

theorem claim_C6_witness :
    sieveOfEratosthenesSequentialBase 3 = primesUpTo 3 ∧ loopRange 3 (intSqrt 3) 2 = [] :=
  ⟨(claim_C6_base_sieve 3).1, (claim_C6_base_sieve 3).2.2.2 (Or.inr rfl)⟩

/-- **C7.** The final prime list is strictly increasing with no duplicates,
and (whenever segments are dispatched at all, i.e. `N ≥ 2`) its length is
the sum of the lengths of all segment results: aggregation drops and
duplicates nothing. -/
theorem claim_C7_aggregation (N c W : Nat) (hc : 0 < c) (hW : 0 < W) :
    (findPrimesWithSegmentedSieve N c W).Sorted (· < ·) ∧
    (findPrimesWithSegmentedSieve N c W).Nodup ∧
    (2 ≤ N → (findPrimesWithSegmentedSieve N c W).length =
      ((segResultsList N W (sieveOfEratosthenesSequentialBase (intSqrt N))).map
        List.length).sum) := by
  refine ⟨?_, ?_, ?_⟩
  · rw [findPrimes_eq N c W hW]
    exact primesUpTo_sorted N
  · rw [findPrimes_eq N c W hW]
    exact (primesUpTo_sorted N).nodup
  · intro hN
    rw [findPrimesWithSegmentedSieve, if_neg (by omega)]
    show (assembleAndSort (segResultsList N W
      (sieveOfEratosthenesSequentialBase (intSqrt N)))).length = _
    rw [assembleAndSort, (List.perm_insertionSort _ _).length_eq, foldl_append_eq_flatten,
      List.length_flatten]

theorem claim_C7_witness :
    (findPrimesWithSegmentedSieve 10 4 4).Sorted (· < ·) ∧
    (2 ≤ 10 → (findPrimesWithSegmentedSieve 10 4 4).length =
      ((segResultsList 10 4 (sieveOfEratosthenesSequentialBase (intSqrt 10))).map
        List.length).sum) :=
  ⟨(claim_C7_aggregation 10 4 4 (by decide) (by decide)).1,
    (claim_C7_aggregation 10 4 4 (by decide) (by decide)).2.2⟩

/-- **C8.** The returned prime list is independent of the configuration:
any two valid (positive) segment widths and worker counts produce the same
list. -/
theorem claim_C8_config_independence (N c1 W1 c2 W2 : Nat)
    (hc1 : 0 < c1) (hW1 : 0 < W1) (hc2 : 0 < c2) (hW2 : 0 < W2) :
    findPrimesWithSegmentedSieve N c1 W1 = findPrimesWithSegmentedSieve N c2 W2 := by
  rw [findPrimes_eq N c1 W1 hW1, findPrimes_eq N c2 W2 hW2]

theorem claim_C8_witness :
    findPrimesWithSegmentedSieve 30 1 7 = findPrimesWithSegmentedSieve 30 4 10 :=
  claim_C8_config_independence 30 1 7 4 10 (by decide) (by decide) (by decide) (by decide)

/-- **C9.** For every segment task with `low ≤ high`, every index the worker
passes to the unchecked bitset helpers — both the marking indices and the
collection-probe indices — lies in `[0, high - low]`, so its byte index is
strictly below the allocated bitset length `(high - low + 8) / 8` (which is
the allocation `(segmentNumCount + 7) / 8`); and the marking loop never
changes the bitset length. -/
theorem claim_C9_index_safety (low high : Nat) (bp : List Nat) (hlh : low ≤ high) :
    (∀ idx ∈ workerMarkIndices low high bp,
      idx ≤ high - low ∧ idx / 8 < (high - low + 8) / 8) ∧
    (∀ idx ∈ workerProbeIndices low high,
      idx ≤ high - low ∧ idx / 8 < (high - low + 8) / 8) ∧
    ((high - low + 8) / 8 = ((high - low + 1) + 7) / 8) ∧
    (∀ bs : List Nat, (segPrimesLoop low high bp bs).length = bs.length) := by
  refine ⟨?_, ?_, by omega, fun bs => segPrimesLoop_length low high bp bs⟩
  · intro idx h
    have := mem_workerMarkIndices_le bp h
    exact ⟨this, by omega⟩
  · intro idx h
    have := mem_workerProbeIndices_le h
    exact ⟨this, by omega⟩

theorem claim_C9_witness :
    (10 : Nat) ≤ 19 ∧
    ∀ idx ∈ workerMarkIndices 10 19 [2, 3],
      idx ≤ 19 - 10 ∧ idx / 8 < (19 - 10 + 8) / 8 :=
  ⟨by decide, (claim_C9_index_safety 10 19 [2, 3] (by decide)).1⟩

/-- **C10.** For indices whose byte positions are inside the bitset: after
`markBitSegment i`, testing `i` yields true; any other index `j` reads the
same value as before (only the addressed bit changes); and marking an
already-marked index leaves the bitset unchanged (idempotence). -/
theorem claim_C10_bit_helpers (bs : List Nat) (i j : Nat)
    (hi : i / 8 < bs.length) (hj : j / 8 < bs.length) :
    isBitMarkedSegment i (markBitSegment i bs) = true ∧
    (j ≠ i → isBitMarkedSegment j (markBitSegment i bs) = isBitMarkedSegment j bs) ∧
    (isBitMarkedSegment i bs = true → markBitSegment i bs = bs) := by
  refine ⟨isBitMarked_markBit_self hi, ?_, markBitSegment_idem⟩
  intro hne
  rw [isBitMarked_markBit hj]
  simp [hne]

theorem claim_C10_witness :
    isBitMarkedSegment 5 (markBitSegment 5 [0, 0]) = true ∧
    isBitMarkedSegment 9 (markBitSegment 5 [0, 0]) = isBitMarkedSegment 9 [0, 0] :=
  ⟨(claim_C10_bit_helpers [0, 0] 5 9 (by decide) (by decide)).1,
    (claim_C10_bit_helpers [0, 0] 5 9 (by decide) (by decide)).2.1 (by decide)⟩

